import Mathlib

/-!
# MidiExporter — verification of the event-to-interval transcription core

Shallow embedding of `midi_transcriber.py`:
* `processTrack` / `transcribe_midi` — the tempo-aware time mapper
  (`transcribe_midi`, lines 132–162 of the source),
* `pairGo` / `convert_to_midi_notes` — the interval pairer
  (lines 165–192),
* `transformNote` / `apply_transforms` — the transform pipeline
  (lines 100–127), with the CLI-built modifiers `make_transposer`
  and `clampMod` (lines 249–263),
* `applyTransformsStore` — the same pipeline over an explicit object
  heap, used to verify the frame property (the input note objects are
  never written).

Python integers are unbounded, so machine fields are `Int` (tick counts,
which the decoder guarantees non-negative, are `Nat`).  Python's float
`time_scale` is embedded as `ℚ` and `round` as round-half-to-even
(`pyRound`), Python 3's rounding rule.
-/

/-- The compact output event of the transcriber (`MidiNote` dataclass,
fields `index, midiNoteNumber, timeMSec, noteDuration`, all Python ints
defaulting to 0). -/
structure MidiNote where
  index : Int := 0
  midiNoteNumber : Int := 0
  timeMSec : Int := 0
  noteDuration : Int := 0
deriving Repr, DecidableEq

instance : Inhabited MidiNote := ⟨{}⟩

/-- Constant `NOTE_MIN = 53` from the source. -/
def NOTE_MIN : Int := 53

/-- Constant `NOTE_MAX = 79` from the source. -/
def NOTE_MAX : Int := 79

/-- Event kind of the mapper's output tuples: the third component
`"ON"` / `"OFF"` of `(midi_note_number, timestamp_ms, state)`. -/
inductive EvState where
  | on : EvState
  | off : EvState
deriving Repr, DecidableEq

/-- One output record of `transcribe_midi`: the tuple
`(midi_note_number, timestamp_ms, "ON"/"OFF")`. -/
structure NoteEvent where
  note : Int
  time : Int
  state : EvState
deriving Repr, DecidableEq

/-- A raw mido track message, as far as `transcribe_midi` inspects it:
its delta time in ticks (`msg.time`, non-negative) and its type with the
fields the transcriber reads (`set_tempo.tempo`, `note_on.note` /
`.velocity`, `note_off.note`); any other message type is `other`. -/
inductive MsgKind where
  | set_tempo (tempo : Nat) : MsgKind
  | note_on (note : Int) (velocity : Int) : MsgKind
  | note_off (note : Int) : MsgKind
  | other : MsgKind
deriving Repr, DecidableEq

/-- A track message: delta ticks plus kind. -/
structure Msg where
  time : Nat
  kind : MsgKind
deriving Repr, DecidableEq

/-- Constant `default_tempo = 500000  # 120 BPM` (line 141). -/
def default_tempo : Nat := 500000

/-- Line 149: `time_ms = int((cur_ticks * tempo) / (ticks_per_beat * 1000))`.
For non-negative integers, Python's `int(·)` of the true quotient is the
floor, i.e. `Nat` division. -/
def tickToMs (cur_ticks tempo ticks_per_beat : Nat) : Nat :=
  cur_ticks * tempo / (ticks_per_beat * 1000)

/-- The body of the per-track loop of `transcribe_midi` (lines 145–156):
running state is `cur_ticks` and `tempo`; each message advances
`cur_ticks` by its delta, converts to milliseconds at the *current*
`tempo`, then dispatches on the message type (`set_tempo` updates the
tempo and emits nothing; `note_on` with positive velocity emits ON;
`note_off`, or `note_on` with zero velocity, emits OFF). -/
def trackGo (ticks_per_beat : Nat) : Nat → Nat → List Msg → List NoteEvent
  | _, _, [] => []
  | cur_ticks, tempo, m :: rest =>
    let ct := cur_ticks + m.time
    let time_ms : Int := (tickToMs ct tempo ticks_per_beat : Int)
    match m.kind with
    | .set_tempo t => trackGo ticks_per_beat ct t rest
    | .note_on note v =>
        if v > 0 then ⟨note, time_ms, .on⟩ :: trackGo ticks_per_beat ct tempo rest
        else ⟨note, time_ms, .off⟩ :: trackGo ticks_per_beat ct tempo rest
    | .note_off note => ⟨note, time_ms, .off⟩ :: trackGo ticks_per_beat ct tempo rest
    | .other => trackGo ticks_per_beat ct tempo rest

/-- One track of `transcribe_midi`: `cur_ticks = 0`,
`tempo = default_tempo` (lines 145–146), then the message loop. -/
def processTrack (ticks_per_beat : Nat) (track : List Msg) : List NoteEvent :=
  trackGo ticks_per_beat 0 default_tempo track

/-- Function `transcribe_midi` on an already-decoded file (`mid.tracks`,
`mid.ticks_per_beat`): process the first two tracks (`mid.tracks[:2]`),
each with fresh state, concatenate, and stably sort the events by
timestamp (`note_events.sort(key=lambda x: x[1])`). -/
def transcribe_midi (ticks_per_beat : Nat) (tracks : List (List Msg)) :
    List NoteEvent :=
  ((tracks.take 2).flatMap (processTrack ticks_per_beat)).mergeSort
    (fun a b => a.time ≤ b.time)

/-- The minimum used for re-normalization:
`t0 = min(n.timeMSec for n in out)` over a non-empty list. -/
def minStart (n : MidiNote) (ns : List MidiNote) : Int :=
  ns.foldl (fun a m => min a m.timeMSec) n.timeMSec

/-- The shared re-normalization step (lines 122–125 and 187–190):
`if out: t0 = min(n.timeMSec for n in out); for n in out: n.timeMSec -= t0`.
On an empty list nothing happens. -/
def renormNotes : List MidiNote → List MidiNote
  | [] => []
  | n :: ns =>
    let t0 := minStart n ns
    (n :: ns).map (fun m => { m with timeMSec := m.timeMSec - t0 })

/-- The pairing loop of `convert_to_midi_notes` (lines 170–185).  State:
`active` — the dict from note number to start time, `idx` — the next
index, `out` — the accumulated list, `limit` — the optional note limit.
`ON` stores (overwriting) the start; `OFF` pops a matching start, emits
the interval and breaks once `len(out) >= limit`; an `OFF` whose note is
not in `active` falls through. -/
def pairGo (limit : Option Int) :
    (Int → Option Int) → Nat → List MidiNote → List NoteEvent → List MidiNote
  | _, _, out, [] => out
  | active, idx, out, e :: rest =>
    match e.state with
    | .on => pairGo limit (fun q => if q = e.note then some e.time else active q)
        idx out rest
    | .off =>
      match active e.note with
      | some start =>
          let out' := out ++ [{ index := (idx : Int), midiNoteNumber := e.note,
                                timeMSec := start, noteDuration := e.time - start }]
          match limit with
          | some l =>
              if (out'.length : Int) ≥ l then out'
              else pairGo limit (fun q => if q = e.note then none else active q)
                (idx + 1) out' rest
          | none => pairGo limit (fun q => if q = e.note then none else active q)
              (idx + 1) out' rest
      | none => pairGo limit active idx out rest

/-- Function `convert_to_midi_notes` (lines 165–192): pair ON/OFF events into
`MidiNote` intervals, then re-normalize so the earliest start is 0. -/
def convert_to_midi_notes (events : List NoteEvent) (limit : Option Int) :
    List MidiNote :=
  renormNotes (pairGo limit (fun _ => none) 0 [] events)

/-- The `TransformOptions` dataclass (lines 92–95).  `time_scale` is a
Python float, embedded as `ℚ`. -/
structure TransformOptions where
  time_shift_ms : Int := 0
  time_scale : ℚ := 1
  min_duration_ms : Int := 0
deriving Repr, DecidableEq

/-- Type `Modifier = Callable[[MidiNote], MidiNote]`. -/
abbrev Modifier := MidiNote → MidiNote

/-- Python 3's `round`: round half to even, otherwise to the nearest
integer. -/
def pyRound (q : ℚ) : Int :=
  if q - ⌊q⌋ = 1 / 2 then (if Even ⌊q⌋ then ⌊q⌋ else ⌊q⌋ + 1) else round q

/-- The per-note body of `apply_transforms` (lines 104–120) as a value
transformer: scale times if `time_scale != 1.0`, add `time_shift_ms` if
non-zero, floor the duration if `min_duration_ms` is truthy and the
duration is below it, then thread through the extra modifiers in list
order. -/
def transformNote (opts : TransformOptions) (mods : List Modifier)
    (n : MidiNote) : MidiNote :=
  let m := n
  let m := if opts.time_scale ≠ 1 then
      { m with timeMSec := pyRound (m.timeMSec * opts.time_scale),
               noteDuration := pyRound (m.noteDuration * opts.time_scale) }
    else m
  let m := if opts.time_shift_ms ≠ 0 then
      { m with timeMSec := m.timeMSec + opts.time_shift_ms } else m
  let m := if opts.min_duration_ms ≠ 0 ∧ m.noteDuration < opts.min_duration_ms
    then { m with noteDuration := opts.min_duration_ms } else m
  mods.foldl (fun acc f => f acc) m

/-- Function `apply_transforms` (lines 100–127) as a value-level function: map the
per-note transform over the input and re-normalize the result. -/
def apply_transforms (notes : List MidiNote) (opts : TransformOptions)
    (extra_modifiers : List Modifier) : List MidiNote :=
  renormNotes (notes.map (transformNote opts extra_modifiers))

/-!
## Object-heap model of `apply_transforms` (frame property)

In the Python source the notes are mutable objects.  To state that
`apply_transforms` never mutates its *input* objects — it mutates only
the fresh copies it allocates with `MidiNote(**vars(n))` — the pipeline
is modelled once more over an explicit heap: a growing list of
`MidiNote` objects, a reference being an index into it.  Every field
write of the source becomes a `heapSet` at the written object's
reference.
-/

/-- The object heap: allocated `MidiNote` objects in allocation order. -/
abbrev Heap := List MidiNote

/-- Read the object a reference points to. -/
def heapGet (h : Heap) (r : Nat) : MidiNote := h.getD r default

/-- Overwrite the object a reference points to. -/
def heapSet (h : Heap) (r : Nat) (v : MidiNote) : Heap := h.set r v

/-- The loop body of `apply_transforms` (lines 104–120) on the heap:
`m = MidiNote(**vars(n))` allocates a fresh copy of the object at `r`;
the scale / shift / floor steps are in-place field writes to that copy;
`for mod in extra_modifiers: m = mod(m)` — the modifiers the program
builds update their argument's fields in place and return it, so each
iteration overwrites the copy with the modifier's result.  Returns the
extended heap and the reference to the transformed copy. -/
def transformNoteStore (opts : TransformOptions) (mods : List Modifier)
    (h : Heap) (r : Nat) : Heap × Nat :=
  let m := h.length
  let h := h ++ [heapGet h r]
  let h := if opts.time_scale ≠ 1 then
      heapSet h m { heapGet h m with
        timeMSec := pyRound ((heapGet h m).timeMSec * opts.time_scale),
        noteDuration := pyRound ((heapGet h m).noteDuration * opts.time_scale) }
    else h
  let h := if opts.time_shift_ms ≠ 0 then
      heapSet h m
        { heapGet h m with timeMSec := (heapGet h m).timeMSec + opts.time_shift_ms }
    else h
  let h := if opts.min_duration_ms ≠ 0 ∧
      (heapGet h m).noteDuration < opts.min_duration_ms then
      heapSet h m { heapGet h m with noteDuration := opts.min_duration_ms }
    else h
  let h := mods.foldl (fun h f => heapSet h m (f (heapGet h m))) h
  (h, m)

/-- Function `apply_transforms` (lines 100–127) on the heap: build `out` by
transforming each input reference, then re-normalize in place
(`for e in out: e.timeMSec -= t0`) over the output references.  Returns
the final heap and the output references. -/
def applyTransformsStore (opts : TransformOptions) (mods : List Modifier)
    (h : Heap) (notes : List Nat) : Heap × List Nat :=
  let acc := notes.foldl (fun acc r =>
      let hm := transformNoteStore opts mods acc.1 r
      (hm.1, acc.2 ++ [hm.2])) (h, ([] : List Nat))
  match acc.2 with
  | [] => (acc.1, acc.2)
  | r0 :: rs =>
      let t0 := minStart (heapGet acc.1 r0) (rs.map (heapGet acc.1))
      let h2 := acc.2.foldl (fun h r =>
          heapSet h r { heapGet h r with timeMSec := (heapGet h r).timeMSec - t0 }) acc.1
      (h2, acc.2)

/-- The modifier built by `make_transposer` (lines 250–255):
`n.midiNoteNumber = max(0, min(127, n.midiNoteNumber + semitones))`. -/
def make_transposer (semitones : Int) : Modifier := fun n =>
  { n with midiNoteNumber := max 0 (min 127 (n.midiNoteNumber + semitones)) }

/-- The `_clamp` modifier (lines 260–262):
`n.midiNoteNumber = max(NOTE_MIN, min(NOTE_MAX, n.midiNoteNumber))`. -/
def clampMod : Modifier := fun n =>
  { n with midiNoteNumber := max NOTE_MIN (min NOTE_MAX n.midiNoteNumber) }

/-!
## Helper lemmas
-/

/-- Value of `pyRound` at an integer point: the integer itself. -/
lemma pyRound_intCast (n : ℤ) : pyRound ((n : ℚ)) = n := by
  rw [pyRound, Int.floor_intCast, sub_self]
  rw [if_neg (by norm_num), round_intCast]

/-- Evaluate `pyRound` of an integer-valued rational. -/
lemma pyRound_eval (q : ℚ) (b : ℤ) (h : q = (b : ℚ)) : pyRound q = b := by
  rw [h, pyRound_intCast]

/-- Re-normalization does not change the number of intervals. -/
lemma renormNotes_length (o : List MidiNote) : (renormNotes o).length = o.length := by
  cases o <;> simp [renormNotes]

/-- The running minimum is below its initial value. -/
lemma foldlMin_le_init (ns : List MidiNote) (a : ℤ) :
    ns.foldl (fun b x => min b x.timeMSec) a ≤ a := by
  induction ns generalizing a with
  | nil => exact le_refl a
  | cons x xs ih => exact le_trans (ih (min a x.timeMSec)) (min_le_left _ _)

/-- The running minimum is below every element. -/
lemma foldlMin_le_mem (ns : List MidiNote) :
    ∀ (a : ℤ) (m : MidiNote), m ∈ ns →
      ns.foldl (fun b x => min b x.timeMSec) a ≤ m.timeMSec := by
  induction ns with
  | nil => intro a m hm; cases hm
  | cons x xs ih =>
    intro a m hm
    rcases List.mem_cons.mp hm with h | h
    · subst h
      exact le_trans (foldlMin_le_init xs _) (min_le_right _ _)
    · exact ih _ m h

/-- The running minimum is attained. -/
lemma foldlMin_attained (ns : List MidiNote) (a : ℤ) :
    ns.foldl (fun b x => min b x.timeMSec) a = a
      ∨ ∃ m ∈ ns, ns.foldl (fun b x => min b x.timeMSec) a = m.timeMSec := by
  induction ns generalizing a with
  | nil => exact Or.inl rfl
  | cons x xs ih =>
    rcases ih (min a x.timeMSec) with h | ⟨m, hm, h⟩
    · rcases min_choice a x.timeMSec with hc | hc
      · exact Or.inl (by rw [List.foldl_cons, h, hc])
      · exact Or.inr ⟨x, List.mem_cons_self _ _, by rw [List.foldl_cons, h, hc]⟩
    · exact Or.inr ⟨m, List.mem_cons_of_mem _ hm, h⟩

/-- The minimum `t0` of the re-normalization is a lower bound. -/
lemma minStart_le (n : MidiNote) (ns : List MidiNote) (m : MidiNote)
    (hm : m ∈ n :: ns) : minStart n ns ≤ m.timeMSec := by
  rcases List.mem_cons.mp hm with h | h
  · subst h; exact foldlMin_le_init ns _
  · exact foldlMin_le_mem ns _ m h

/-- The minimum `t0` of the re-normalization is attained. -/
lemma minStart_attained (n : MidiNote) (ns : List MidiNote) :
    ∃ m ∈ n :: ns, m.timeMSec = minStart n ns := by
  rcases foldlMin_attained ns n.timeMSec with h | ⟨m, hm, h⟩
  · exact ⟨n, List.mem_cons_self _ _, h.symm⟩
  · exact ⟨m, List.mem_cons_of_mem _ hm, h.symm⟩

/-- Re-normalizing a non-empty list: every start is non-negative and the
minimal start 0 is attained. -/
lemma renormNotes_min (o : List MidiNote) (ho : o ≠ []) :
    (∀ m ∈ renormNotes o, 0 ≤ m.timeMSec)
      ∧ ∃ m ∈ renormNotes o, m.timeMSec = 0 := by
  match o with
  | [] => exact absurd rfl ho
  | n :: ns =>
    constructor
    · intro m hm
      rw [renormNotes] at hm
      rcases List.mem_map.mp hm with ⟨m0, hm0, rfl⟩
      simp only
      exact sub_nonneg.mpr (minStart_le n ns m0 hm0)
    · rcases minStart_attained n ns with ⟨m0, hm0, h0⟩
      refine ⟨_, List.mem_map.mpr ⟨m0, hm0, rfl⟩, ?_⟩
      simp only
      rw [h0, sub_self]

/-- Re-normalization does not change the `index` fields. -/
lemma renormNotes_map_index (o : List MidiNote) :
    (renormNotes o).map (·.index) = o.map (·.index) := by
  cases o with
  | nil => rfl
  | cons n ns => simp [renormNotes, List.map_map, Function.comp]

/-- Extending the output by one interval indexed `idx` extends the index
trace by one element of the arithmetic range. -/
lemma map_index_append_one (out : List MidiNote) (nnote : MidiNote)
    (idx k' : Nat) (l : List MidiNote) (hidx : nnote.index = (idx : ℤ))
    (hk : l.map (·.index)
      = (out ++ [nnote]).map (·.index)
        ++ (List.range' (idx + 1) k').map (fun i : ℕ => (i : ℤ))) :
    l.map (·.index)
      = out.map (·.index) ++ (List.range' idx (k' + 1)).map (fun i : ℕ => (i : ℤ)) := by
  rw [hk, List.map_append, List.range'_succ]
  simp [hidx]

/-- The pairing loop assigns consecutive indices starting at `idx`. -/
lemma pairGo_indices (evs : List NoteEvent) :
    ∀ (limit : Option ℤ) (active : ℤ → Option ℤ) (idx : Nat) (out : List MidiNote),
      ∃ k, (pairGo limit active idx out evs).map (·.index)
        = out.map (·.index) ++ (List.range' idx k).map (fun i : ℕ => (i : ℤ)) := by
  induction evs with
  | nil => intro limit active idx out; exact ⟨0, by simp [pairGo]⟩
  | cons e rest ih =>
    intro limit active idx out
    obtain ⟨p, t, st⟩ := e
    rcases st with _ | _
    · simpa [pairGo] using ih limit _ idx out
    · cases hact : active p with
      | none => simpa [pairGo, hact] using ih limit active idx out
      | some start =>
        cases limit with
        | none =>
          obtain ⟨k, hk⟩ := ih none (fun q => if q = p then none else active q) (idx + 1)
            (out ++ [MidiNote.mk (idx : ℤ) p start (t - start)])
          refine ⟨k + 1, ?_⟩
          rw [show pairGo none active idx out (⟨p, t, .off⟩ :: rest)
              = pairGo none (fun q => if q = p then none else active q) (idx + 1)
                (out ++ [MidiNote.mk (idx : ℤ) p start (t - start)]) rest from
            by simp [pairGo, hact]]
          exact map_index_append_one out _ idx k _ rfl hk
        | some l =>
          by_cases hl : ((out.length : ℤ) + 1) ≥ l
          · refine ⟨1, ?_⟩
            rw [show pairGo (some l) active idx out (⟨p, t, .off⟩ :: rest)
                = out ++ [MidiNote.mk (idx : ℤ) p start (t - start)] from
              by simp [pairGo, hact]; intro hc; exact absurd hc (by omega)]
            simp [List.range'_succ]
          · obtain ⟨k, hk⟩ := ih (some l) (fun q => if q = p then none else active q) (idx + 1)
              (out ++ [MidiNote.mk (idx : ℤ) p start (t - start)])
            refine ⟨k + 1, ?_⟩
            rw [show pairGo (some l) active idx out (⟨p, t, .off⟩ :: rest)
                = pairGo (some l) (fun q => if q = p then none else active q) (idx + 1)
                  (out ++ [MidiNote.mk (idx : ℤ) p start (t - start)]) rest from
              by simp [pairGo, hact]; intro hc; exact absurd hc (by omega)]
            exact map_index_append_one out _ idx k _ rfl hk

/-- For a time-sorted event list, every interval the pairing loop emits
has a non-negative duration: each stored start is below every remaining
timestamp, so a closing `OFF` can only be later. -/
lemma pairGo_dur (evs : List NoteEvent) :
    ∀ (limit : Option ℤ) (active : ℤ → Option ℤ) (idx : Nat) (out : List MidiNote),
      List.Pairwise (fun a b : NoteEvent => a.time ≤ b.time) evs →
      (∀ p t, active p = some t → ∀ e ∈ evs, t ≤ e.time) →
      (∀ m ∈ out, 0 ≤ m.noteDuration) →
      ∀ m ∈ pairGo limit active idx out evs, 0 ≤ m.noteDuration := by
  induction evs with
  | nil =>
    intro limit active idx out _ _ hout m hm
    exact hout m (by simpa [pairGo] using hm)
  | cons e rest ih =>
    intro limit active idx out hsort hinv hout m hm
    obtain ⟨hhead, hsort'⟩ := List.pairwise_cons.mp hsort
    obtain ⟨p, t, st⟩ := e
    rcases st with _ | _
    · rw [show pairGo limit active idx out (⟨p, t, .on⟩ :: rest)
          = pairGo limit (fun q => if q = p then some t else active q) idx out rest from
        by simp [pairGo]] at hm
      refine ih limit _ idx out hsort' ?_ hout m hm
      intro q u hq e' he'
      by_cases hqp : q = p
      · rw [hqp, if_pos rfl] at hq
        cases hq
        exact hhead e' he'
      · rw [if_neg hqp] at hq
        exact hinv q u hq e' (List.mem_cons_of_mem _ he')
    · cases hact : active p with
      | none =>
        rw [show pairGo limit active idx out (⟨p, t, .off⟩ :: rest)
            = pairGo limit active idx out rest from by simp [pairGo, hact]] at hm
        refine ih limit active idx out hsort' ?_ hout m hm
        intro q u hq e' he'
        exact hinv q u hq e' (List.mem_cons_of_mem _ he')
      | some start =>
        have hts : start ≤ t := hinv p start hact ⟨p, t, .off⟩ (List.mem_cons_self _ _)
        have hout' : ∀ m' ∈ out ++ [MidiNote.mk (idx : ℤ) p start (t - start)],
            0 ≤ m'.noteDuration := by
          intro m' hm'
          rcases List.mem_append.mp hm' with h | h
          · exact hout m' h
          · rcases List.mem_singleton.mp h with rfl
            simpa using sub_nonneg.mpr hts
        have hinv' : ∀ q u, (fun q => if q = p then none else active q) q = some u →
            ∀ e' ∈ rest, u ≤ e'.time := by
          intro q u hq e' he'
          by_cases hqp : q = p
          · rw [hqp] at hq; simp at hq
          · simp only [if_neg hqp] at hq
            exact hinv q u hq e' (List.mem_cons_of_mem _ he')
        cases limit with
        | none =>
          rw [show pairGo none active idx out (⟨p, t, .off⟩ :: rest)
              = pairGo none (fun q => if q = p then none else active q) (idx + 1)
                (out ++ [MidiNote.mk (idx : ℤ) p start (t - start)]) rest from
            by simp [pairGo, hact]] at hm
          exact ih none _ (idx + 1) _ hsort' hinv' hout' m hm
        | some l =>
          by_cases hl : ((out.length : ℤ) + 1) ≥ l
          · rw [show pairGo (some l) active idx out (⟨p, t, .off⟩ :: rest)
                = out ++ [MidiNote.mk (idx : ℤ) p start (t - start)] from
              by simp [pairGo, hact]; intro hc; exact absurd hc (by omega)] at hm
            exact hout' m hm
          · rw [show pairGo (some l) active idx out (⟨p, t, .off⟩ :: rest)
                = pairGo (some l) (fun q => if q = p then none else active q) (idx + 1)
                  (out ++ [MidiNote.mk (idx : ℤ) p start (t - start)]) rest from
              by simp [pairGo, hact]; intro hc; exact absurd hc (by omega)] at hm
            exact ih (some l) _ (idx + 1) _ hsort' hinv' hout' m hm

/-- Reading the freshly appended object. -/
lemma heapGet_append_self (h : Heap) (v : MidiNote) :
    heapGet (h ++ [v]) h.length = v := by
  rw [heapGet, List.getD_eq_getElem?_getD, List.getElem?_append_right (le_refl _)]
  simp

/-- Overwriting the freshly appended object. -/
lemma heapSet_append_self (h : Heap) (v w : MidiNote) :
    heapSet (h ++ [v]) h.length w = h ++ [w] := by
  rw [heapSet, List.set_append]
  simp

/-- The modifier loop only rewrites the freshly appended object. -/
lemma modsFoldl_append (mods : List Modifier) : ∀ (h0 : Heap) (v : MidiNote),
    mods.foldl (fun h f => heapSet h h0.length (f (heapGet h h0.length))) (h0 ++ [v])
      = h0 ++ [mods.foldl (fun acc f => f acc) v] := by
  induction mods with
  | nil => intro h0 v; rfl
  | cons f fs ih =>
    intro h0 v
    rw [List.foldl_cons, List.foldl_cons, heapGet_append_self, heapSet_append_self]
    exact ih h0 (f v)

/-- A conditional in-place update of the freshly appended object keeps
the `h0 ++ [·]` shape. -/
lemma ite_heapSet_shape (h0 : Heap) (v w : MidiNote) (c : Prop) [Decidable c] :
    ∃ v', (if c then heapSet (h0 ++ [v]) h0.length w else (h0 ++ [v])) = h0 ++ [v'] := by
  by_cases hc : c
  · exact ⟨w, by rw [if_pos hc, heapSet_append_self]⟩
  · exact ⟨v, by rw [if_neg hc]⟩

/-- The per-note store transform allocates one fresh object at the end of
the heap and returns its reference; it writes nowhere else. -/
lemma transformNoteStore_shape (opts : TransformOptions) (mods : List Modifier)
    (h : Heap) (r : Nat) :
    ∃ v, transformNoteStore opts mods h r = (h ++ [v], h.length) := by
  simp only [transformNoteStore]
  obtain ⟨v1, e1⟩ := ite_heapSet_shape h (heapGet h r)
    { heapGet (h ++ [heapGet h r]) h.length with
      timeMSec := pyRound ((heapGet (h ++ [heapGet h r]) h.length).timeMSec * opts.time_scale),
      noteDuration :=
        pyRound ((heapGet (h ++ [heapGet h r]) h.length).noteDuration * opts.time_scale) }
    (opts.time_scale ≠ 1)
  rw [e1]
  obtain ⟨v2, e2⟩ := ite_heapSet_shape h v1
    { heapGet (h ++ [v1]) h.length with
      timeMSec := (heapGet (h ++ [v1]) h.length).timeMSec + opts.time_shift_ms }
    (opts.time_shift_ms ≠ 0)
  rw [e2]
  obtain ⟨v3, e3⟩ := ite_heapSet_shape h v2
    { heapGet (h ++ [v2]) h.length with noteDuration := opts.min_duration_ms }
    (opts.min_duration_ms ≠ 0
      ∧ (heapGet (h ++ [v2]) h.length).noteDuration < opts.min_duration_ms)
  rw [e3]
  rw [modsFoldl_append]
  exact ⟨_, rfl⟩

/-- The transform loop of `applyTransformsStore` only appends to the
heap, and every output reference is either inherited or fresh. -/
lemma atsLoop_spec (opts : TransformOptions) (mods : List Modifier)
    (notes : List Nat) : ∀ (h : Heap) (out : List Nat),
    ∃ tail : List MidiNote,
      (notes.foldl (fun acc r =>
          let hm := transformNoteStore opts mods acc.1 r
          (hm.1, acc.2 ++ [hm.2])) (h, out)).1 = h ++ tail
      ∧ ∀ r' ∈ (notes.foldl (fun acc r =>
          let hm := transformNoteStore opts mods acc.1 r
          (hm.1, acc.2 ++ [hm.2])) (h, out)).2, r' ∈ out ∨ h.length ≤ r' := by
  induction notes with
  | nil =>
    intro h out
    exact ⟨[], by simp, fun r' hr' => Or.inl (by simpa using hr')⟩
  | cons r rs ih =>
    intro h out
    obtain ⟨v, hv⟩ := transformNoteStore_shape opts mods h r
    obtain ⟨tail, htail, hrefs⟩ := ih (h ++ [v]) (out ++ [h.length])
    rw [List.foldl_cons]
    constructor
    case w => exact [v] ++ tail
    constructor
    · simp only [hv]
      rw [htail, List.append_assoc]
    · intro r' hr'
      simp only [hv] at hr'
      rcases hrefs r' hr' with hmem | hge
      · rcases List.mem_append.mp hmem with hmem' | hmem'
        · exact Or.inl hmem'
        · exact Or.inr (le_of_eq (List.mem_singleton.mp hmem').symm)
      · exact Or.inr (le_trans (by simp) hge)

/-- The in-place re-normalization loop leaves every cell below `L`
untouched when all written references are at least `L`. -/
lemma renormLoop_frame (out : List Nat) : ∀ (h : Heap) (L : Nat) (t0 : ℤ),
    (∀ r ∈ out, L ≤ r) → ∀ i, i < L →
      (out.foldl (fun h r =>
          heapSet h r { heapGet h r with timeMSec := (heapGet h r).timeMSec - t0 }) h)[i]?
        = h[i]? := by
  induction out with
  | nil => intro h L t0 _ i _; rfl
  | cons r rs ih =>
    intro h L t0 hout i hi
    rw [List.foldl_cons]
    rw [ih _ L t0 (fun r' hr' => hout r' (List.mem_cons_of_mem _ hr')) i hi]
    rw [heapSet]
    exact List.getElem?_set_ne
      (Nat.ne_of_gt (lt_of_lt_of_le hi (hout r (List.mem_cons_self _ _))))

/-!
## Claim theorems
-/

/-- Claim C1, counterexample.  The claim says that after a `TempoChange`
only the ticks elapsed *after* the change are converted at the new tempo,
ticks elapsed before it staying converted at the old tempo.  On the
track `[set_tempo 1000000 @ delta 480, note_on 60 @ delta 480]` with 480
ticks per beat, that reading predicts `500 + 1000 = 1500` ms
(480 ticks at the default tempo, then 480 ticks at the new one), but the
mapper emits the event at 2000 ms: the entire cumulative tick count is
converted at the new tempo. -/
theorem C1_counterexample :
    processTrack 480 [⟨480, .set_tempo 1000000⟩, ⟨480, .note_on 60 64⟩]
      = [⟨60, 2000, .on⟩]
    ∧ (2000 : ℤ) ≠ (tickToMs 480 default_tempo 480 : ℤ)
        + (tickToMs 480 1000000 480 : ℤ) := by
  constructor
  · decide
  · decide

/-- Claim C1, amended.  A `TempoChange` updates `currentTempo` in place
and takes effect for subsequent conversions (an event before the change
is converted at the old tempo), but each conversion applies the current
tempo to the *entire* cumulative tick count: an event after the change
is timestamped `tickToMs (d0 + d1 + d2) T`, so the ticks elapsed before
the change are also re-converted at the new tempo `T`. -/
theorem C1_tempo_semantics (tpb d0 d1 d2 T : Nat) (n1 n2 : ℤ) :
    processTrack tpb [⟨d0, .note_on n1 64⟩, ⟨d1, .set_tempo T⟩, ⟨d2, .note_on n2 64⟩]
      = [⟨n1, (tickToMs d0 default_tempo tpb : ℤ), .on⟩,
         ⟨n2, (tickToMs (d0 + d1 + d2) T tpb : ℤ), .on⟩] := by
  norm_num [processTrack, trackGo]

/-- Claim C2, counterexample.  The claim says a `TransformConfig` with
non-positive `timeScale` is rejected before processing begins, with zero
output.  In fact `apply_transforms` performs no validation: with
`time_scale = -1` a one-interval input produces a (non-empty) output in
which the interval was processed under the invalid scale, its duration
negated. -/
theorem C2_counterexample :
    apply_transforms [{ index := 0, midiNoteNumber := 60, timeMSec := 0, noteDuration := 100 }]
        { time_shift_ms := 0, time_scale := -1, min_duration_ms := 0 } []
      = [{ index := 0, midiNoteNumber := 60, timeMSec := 0, noteDuration := -100 }] := by
  simp [apply_transforms, transformNote, renormNotes, minStart,
    show (-1 : ℚ) ≠ 1 by norm_num]
  rw [pyRound_eval _ (-100) (by norm_num)]

/-- Claim C2, amended.  `apply_transforms` does not validate its
configuration: even for a non-positive `time_scale` every input interval
is processed (the output has exactly one interval per input interval);
nothing is rejected and no empty output is produced. -/
theorem C2_no_rejection (notes : List MidiNote) (opts : TransformOptions)
    (mods : List Modifier) (hscale : opts.time_scale ≤ 0) :
    (apply_transforms notes opts mods).length = notes.length := by
  rw [apply_transforms, renormNotes_length, List.length_map]

/-- Witness for `C2_no_rejection` at `time_scale = -1` on one interval. -/
theorem C2_no_rejection_witness :
    (apply_transforms [{ index := 0, midiNoteNumber := 60, timeMSec := 0, noteDuration := 100 }]
        { time_shift_ms := 0, time_scale := -1, min_duration_ms := 0 } []).length = 1 :=
  C2_no_rejection _ _ [] (by norm_num)

/-- Claim C3.  The mapper's conversion is
`timeMs = floor(cumulativeTicks * currentTempo / (ticksPerQuarter * 1000))`
with truncating integer division, and in particular a track at the
default tempo 500000 µs/quarter with 480 ticks per quarter maps an event
at cumulative delta 480 ticks to exactly 500 ms. -/
theorem C3_conversion_formula :
    (∀ ct tempo tpb : Nat,
      tickToMs ct tempo tpb = ⌊((ct : ℚ) * tempo) / ((tpb : ℚ) * 1000)⌋₊)
    ∧ processTrack 480 [⟨480, .note_on 60 64⟩] = [⟨60, 500, .on⟩] := by
  constructor
  · intro ct tempo tpb
    rw [show ((ct : ℚ) * tempo) = ((ct * tempo : ℕ) : ℚ) by push_cast; ring,
        show ((tpb : ℚ) * 1000) = ((tpb * 1000 : ℕ) : ℚ) by push_cast; ring,
        Nat.floor_div_nat, Nat.floor_natCast, tickToMs]
  · decide

/-- Claim C4.  Last-start-wins: on
`NoteOn(60,@0), NoteOn(60,@100), NoteOff(60,@200)` the pairing loop
emits the single interval `{start = 100, duration = 100}` (the first
NoteOn is discarded), and after re-normalization of this singleton
output `convert_to_midi_notes` returns `{start = 0, duration = 100}`. -/
theorem C4_overwrite_policy :
    pairGo none (fun _ => none) 0 []
        [⟨60, 0, .on⟩, ⟨60, 100, .on⟩, ⟨60, 200, .off⟩]
      = [{ index := 0, midiNoteNumber := 60, timeMSec := 100, noteDuration := 100 }]
    ∧ convert_to_midi_notes [⟨60, 0, .on⟩, ⟨60, 100, .on⟩, ⟨60, 200, .off⟩] none
      = [{ index := 0, midiNoteNumber := 60, timeMSec := 0, noteDuration := 100 }] := by
  constructor <;> decide

/-- Claim C5.  With `timeScale = 0.5`, `timeShiftMs = 50`,
`minDurationMs = 0`, the per-interval transform maps
`{start = 1000, duration = 200}` to `{start = 550, duration = 100}`:
scaling (rounded to nearest) happens before shifting, so the shift is
not itself scaled. -/
theorem C5_scale_then_shift (i p : ℤ) :
    transformNote { time_shift_ms := 50, time_scale := 1/2, min_duration_ms := 0 } []
        { index := i, midiNoteNumber := p, timeMSec := 1000, noteDuration := 200 }
      = { index := i, midiNoteNumber := p, timeMSec := 550, noteDuration := 100 } := by
  simp [transformNote, show (1/2 : ℚ) ≠ 1 by norm_num]
  constructor
  · rw [pyRound_eval _ 500 (by norm_num)]; norm_num
  · exact pyRound_eval _ 100 (by norm_num)

/-- Claim C6.  With the modifier list the CLI builds
(`make_transposer s` then the range clamp), the pipeline's resulting
pitch is range-clamp applied *after* transpose
(`max 53 (min 79 (max 0 (min 127 (pitch + s))))`), and this order
matters: at pitch 77 with `s = 5`, transpose-then-clamp gives 79 while
clamp-then-transpose gives 82. -/
theorem C6_transpose_then_clamp :
    (∀ (s : ℤ) (opts : TransformOptions) (n : MidiNote),
      (transformNote opts [make_transposer s, clampMod] n).midiNoteNumber
        = max NOTE_MIN (min NOTE_MAX (max 0 (min 127 (n.midiNoteNumber + s)))))
    ∧ max NOTE_MIN (min NOTE_MAX (max 0 (min 127 ((77 : ℤ) + 5))))
        ≠ max 0 (min 127 (max NOTE_MIN (min NOTE_MAX (77 : ℤ)) + 5)) := by
  constructor
  · intro s opts n
    simp only [transformNote, List.foldl, make_transposer, clampMod]
    split_ifs <;> rfl
  · decide

/-- Claim C7.  Re-normalization invariant: every non-empty output of the
pairer and of the transform pipeline has minimum `timeMSec` equal to 0
(every start is `≥ 0` and start 0 is attained), and on empty input both
operations return the empty list (the re-normalization step is skipped,
not an error). -/
theorem C7_renormalization (events : List NoteEvent) (limit : Option ℤ)
    (notes : List MidiNote) (opts : TransformOptions) (mods : List Modifier) :
    (convert_to_midi_notes events limit ≠ [] →
      (∀ m ∈ convert_to_midi_notes events limit, 0 ≤ m.timeMSec)
        ∧ ∃ m ∈ convert_to_midi_notes events limit, m.timeMSec = 0)
    ∧ (apply_transforms notes opts mods ≠ [] →
      (∀ m ∈ apply_transforms notes opts mods, 0 ≤ m.timeMSec)
        ∧ ∃ m ∈ apply_transforms notes opts mods, m.timeMSec = 0)
    ∧ convert_to_midi_notes [] limit = []
    ∧ apply_transforms [] opts mods = [] := by
  refine ⟨?_, ?_, rfl, rfl⟩
  · intro h
    rw [convert_to_midi_notes] at *
    apply renormNotes_min
    intro hc
    exact h (by rw [hc]; rfl)
  · intro h
    rw [apply_transforms] at *
    apply renormNotes_min
    intro hc
    exact h (by rw [hc]; rfl)

/-- Witness for `C7_renormalization` on one paired note. -/
theorem C7_renormalization_witness :
    (∀ m ∈ convert_to_midi_notes [⟨60, 5, .on⟩, ⟨60, 9, .off⟩] none, 0 ≤ m.timeMSec)
      ∧ ∃ m ∈ convert_to_midi_notes [⟨60, 5, .on⟩, ⟨60, 9, .off⟩] none,
          m.timeMSec = 0 :=
  (C7_renormalization [⟨60, 5, .on⟩, ⟨60, 9, .off⟩] none [] {} []).1 (by decide)

/-- Claim C8.  A `NoteOff` whose pitch has no active start is silently
dropped: the pairing loop continues on the remaining events with the
same active table, index and output — no interval, no error, no state
change. -/
theorem C8_unmatched_noteoff (limit : Option ℤ) (active : ℤ → Option ℤ)
    (idx : Nat) (out : List MidiNote) (p t : ℤ) (rest : List NoteEvent)
    (h : active p = none) :
    pairGo limit active idx out (⟨p, t, .off⟩ :: rest)
      = pairGo limit active idx out rest := by
  simp [pairGo, h]

/-- Witness for `C8_unmatched_noteoff` on an unmatched `NoteOff(60)`. -/
theorem C8_unmatched_noteoff_witness :
    pairGo none (fun _ => none) 0 [] [⟨60, 5, .off⟩, ⟨61, 7, .on⟩]
      = pairGo none (fun _ => none) 0 [] [⟨61, 7, .on⟩] :=
  C8_unmatched_noteoff none (fun _ => none) 0 [] 60 5 [⟨61, 7, .on⟩] rfl

/-- Claim C9.  Frame property of the transform pipeline on the object
heap: for every configuration, modifier list and input reference list,
`applyTransformsStore` leaves every pre-existing heap cell unchanged —
all its writes (the in-place transform steps, the in-place modifiers,
the in-place re-normalization) hit only the fresh copies it allocates,
so every field of every input interval is unchanged after the call. -/
theorem C9_no_input_mutation (opts : TransformOptions) (mods : List Modifier)
    (h : Heap) (notes : List Nat) (i : Nat) (hi : i < h.length) :
    (applyTransformsStore opts mods h notes).1[i]? = h[i]? := by
  obtain ⟨tail, htail, hrefs⟩ := atsLoop_spec opts mods notes h []
  simp only [applyTransformsStore]
  cases hout : (notes.foldl (fun acc r =>
      let hm := transformNoteStore opts mods acc.1 r
      (hm.1, acc.2 ++ [hm.2])) (h, [])).2 with
  | nil =>
    simp only [hout]
    rw [htail]
    exact List.getElem?_append_left hi
  | cons r0 rs =>
    simp only [hout]
    have hge : ∀ r ∈ r0 :: rs, h.length ≤ r := by
      intro r hr
      rw [← hout] at hr
      rcases hrefs r hr with hmem | hge
      · cases hmem
      · exact hge
    rw [renormLoop_frame (r0 :: rs) _ h.length _ hge i hi, htail]
    exact List.getElem?_append_left hi

/-- Witness for `C9_no_input_mutation`: a one-object heap transformed
with a time shift still holds the original object at cell 0. -/
theorem C9_no_input_mutation_witness :
    (applyTransformsStore { time_shift_ms := 3, time_scale := 1, min_duration_ms := 0 }
        [] [MidiNote.mk 0 60 5 10] [0]).1[0]?
      = some (MidiNote.mk 0 60 5 10) := by
  rw [C9_no_input_mutation { time_shift_ms := 3, time_scale := 1, min_duration_ms := 0 }
    [] [MidiNote.mk 0 60 5 10] [0] 0 (by decide)]
  rfl

/-- Claim C10.  For a time-sorted input event list, every interval
`convert_to_midi_notes` emits has non-negative duration and
non-negative start, and the `index` fields of the output are exactly
`0, 1, …, n-1` in list order. -/
theorem C10_sorted_input_invariants (events : List NoteEvent) (limit : Option ℤ)
    (hsorted : List.Pairwise (fun a b : NoteEvent => a.time ≤ b.time) events) :
    (∀ m ∈ convert_to_midi_notes events limit,
        0 ≤ m.noteDuration ∧ 0 ≤ m.timeMSec)
    ∧ (convert_to_midi_notes events limit).map (·.index)
        = (List.range (convert_to_midi_notes events limit).length).map
            (fun i : ℕ => (i : ℤ)) := by
  have hdur : ∀ m ∈ pairGo limit (fun _ => none) 0 [] events, 0 ≤ m.noteDuration := by
    refine pairGo_dur events limit _ 0 [] hsorted ?_ ?_
    · intro p t h; cases h
    · intro m hm; cases hm
  constructor
  · intro m hm
    rw [convert_to_midi_notes] at hm
    cases hi : pairGo limit (fun _ => none) 0 [] events with
    | nil => rw [hi] at hm; cases hm
    | cons n ns =>
      rw [hi] at hm
      constructor
      · rw [renormNotes] at hm
        rcases List.mem_map.mp hm with ⟨m0, hm0, rfl⟩
        exact hdur m0 (hi ▸ hm0)
      · exact (renormNotes_min (n :: ns) (by simp)).1 m hm
  · obtain ⟨k, hk⟩ := pairGo_indices events limit (fun _ => none) 0 []
    have hlen : (pairGo limit (fun _ => none) 0 [] events).length = k := by
      have hl := congrArg List.length hk
      simp only [List.length_map, List.length_append, List.length_nil,
        List.length_range', Nat.zero_add] at hl
      exact hl
    rw [convert_to_midi_notes, renormNotes_map_index, renormNotes_length, hlen, hk,
      List.range_eq_range']
    simp

/-- Witness for `C10_sorted_input_invariants` on a sorted four-event
stream pairing two notes. -/
theorem C10_sorted_input_invariants_witness :
    (∀ m ∈ convert_to_midi_notes
        [⟨60, 0, .on⟩, ⟨62, 3, .on⟩, ⟨60, 5, .off⟩, ⟨62, 8, .off⟩] none,
        0 ≤ m.noteDuration ∧ 0 ≤ m.timeMSec)
    ∧ (convert_to_midi_notes
        [⟨60, 0, .on⟩, ⟨62, 3, .on⟩, ⟨60, 5, .off⟩, ⟨62, 8, .off⟩] none).map (·.index)
        = (List.range (convert_to_midi_notes
            [⟨60, 0, .on⟩, ⟨62, 3, .on⟩, ⟨60, 5, .off⟩, ⟨62, 8, .off⟩] none).length).map
            (fun i : ℕ => (i : ℤ)) :=
  C10_sorted_input_invariants _ none (by decide)
